import Mathlib

/-!
Shallow embedding of the FASTA-processing scripts of this repository
(`replace_w_cd.py`, `AF_batch_gen.py`, `separate_complex.py`,
`FASTA Mod/make_fasta.py`) and proofs about them.

Python strings are modelled as `List Char`; a text file is a `List Line`
(its lines, without the trailing newline — the scripts read per line and
write one `\n` per line, so this is faithful for every operation they use).
-/

namespace Fasta

/-- A Python string / one line of a text file. -/
abbrev Line := List Char

/-- The default whitespace set of Python's `str.strip()` (ASCII part). -/
def isPySpace (c : Char) : Bool :=
  c = ' ' || c = '\t' || c = '\n' || c = '\r' || c = '\x0b' || c = '\x0c'

/-- Python `s.lstrip()`. -/
def lstrip (l : Line) : Line := l.dropWhile isPySpace

/-- Python `s.rstrip()`. -/
def rstrip (l : Line) : Line := (l.reverse.dropWhile isPySpace).reverse

/-- Python `s.strip()`. -/
def strip (l : Line) : Line := rstrip (lstrip l)

/-- Python `line.startswith('>')`. -/
def startsWithGT : Line → Bool
  | [] => false
  | c :: _ => c = '>'

/-- Python `s.lstrip('>')`: removes every leading `'>'` character. -/
def lstripGT (l : Line) : Line := l.dropWhile (· = '>')

/-- Assignment `d[k] = v` on a Python (Ordered)Dict represented as an
association list: an existing key keeps its position and gets the new
value, a fresh key is appended at the end. -/
def odInsert (k v : Line) : List (Line × Line) → List (Line × Line)
  | [] => [(k, v)]
  | (k', v') :: rest =>
      if k' = k then (k, v) :: rest else (k', v') :: odInsert k v rest

namespace ReplaceWCD

/-- The loop body and final flush of `parse_fasta` in `replace_w_cd.py`:
state is the remaining lines, `current_header` (an `Option`, `None` before
the first header; headers are never empty strings so Python truthiness of
`current_header` coincides with `Option.isSome`), the accumulated
`current_sequence_lines`, and the `sequences` OrderedDict built so far. -/
def parseFastaGo : List Line → Option Line → List Line → List (Line × Line) → List (Line × Line)
  | [], none, _, seqs => seqs
  | [], some h, cur, seqs => odInsert h cur.flatten seqs
  | l :: rest, curH, cur, seqs =>
    let line := strip l
    if line = [] then parseFastaGo rest curH cur seqs
    else if startsWithGT line then
      match curH with
      | some h => parseFastaGo rest (some line) [] (odInsert h cur.flatten seqs)
      | none => parseFastaGo rest (some line) [] seqs
    else
      parseFastaGo rest curH (cur ++ [line]) seqs

/-- Model of `parse_fasta` of `replace_w_cd.py`: returns an OrderedDict mapping each
header line (still carrying its leading `'>'`) to the concatenation of its
sequence lines. -/
def parse_fasta (lines : List Line) : List (Line × Line) :=
  parseFastaGo lines none [] []

/-- Structurally recursive engine for `wrapChunks`, with a fuel argument so
that it evaluates by kernel reduction; `fuel ≥ s.length` together with
`1 ≤ w` makes the fuel irrelevant (`wrapChunksGo_fuel`). -/
def wrapChunksGo (w : Nat) : Nat → Line → List Line
  | _, [] => []
  | 0, _ :: _ => []
  | fuel + 1, c :: cs => ((c :: cs).take w) :: wrapChunksGo w fuel ((c :: cs).drop w)

/-- The chunking loop `for i in range(0, len(seq), w)` of `write_fasta`,
with the wrap width `60` of the source generalised to a parameter `w`
(the claims quantify over the wrap width; `w = 0` would raise in Python,
all theorems assume `1 ≤ w`). -/
def wrapChunks (w : Nat) (s : Line) : List Line :=
  wrapChunksGo w s.length s

/-- Model of `write_fasta` of `replace_w_cd.py`: for each record, the header line
exactly as stored, followed by the sequence wrapped into width-`w` chunks
(the source fixes `w = 60`). -/
def write_fasta (w : Nat) (seqs : List (Line × Line)) : List Line :=
  seqs.flatMap fun r => r.1 :: wrapChunks w r.2

/-- Folding a record list into an OrderedDict by repeated assignment:
this is what re-parsing the written records performs. -/
def foldRecords (acc : List (Line × Line)) : List (Line × Line) → List (Line × Line)
  | [] => acc
  | r :: tl => foldRecords (odInsert r.1 r.2 acc) tl

/-- The filename test `filename.startswith("complex_")`. -/
def complexPfx : Line := ['c', 'o', 'm', 'p', 'l', 'e', 'x', '_']

/-- The diagnostics `replace_w_cd.py` prints, one constructor per `print`
call of the source. `finalCount` is emitted by no code path: it models the
processed-versus-skipped report that the specification describes, so that
its absence from every run is a statable fact. -/
inductive Msg where
  | processing (filename : Line)
  | skipLessThanTwo (filename : Line)
  | warnNoColon (filename : Line)
  | resultReplaced (header : Line)
  | wroteOutput (filename : Line)
  | startBanner
  | noFilesFound
  | completeBanner
  | finalCount (processed skipped : Nat)
deriving DecidableEq

/-- Whether a diagnostic is a processed-versus-skipped count report. -/
def Msg.isFinalCount : Msg → Bool
  | .finalCount _ _ => true
  | _ => false

/-- Model of `process_fasta_file` of `replace_w_cd.py` on one in-memory file:
returns the diagnostics printed and the output file written (`none` when
the file is skipped). In the source, the `complex_`-with-colon branch also
computes `new_header = f">{protein_id}:{replacement_seq}"`, which is never
used afterwards; every branch performs the same assignment
`sequences[second_header] = replacement_seq`. The `except` branch around
`parse_fasta` only fires on I/O failures, which do not exist for in-memory
content, so it has no counterpart here. -/
def process_fasta_file (filename : Line) (contents : List Line) (repl : Line) :
    List Msg × Option (Line × List Line) :=
  match parse_fasta contents with
  | [] => ([.processing filename, .skipLessThanTwo filename], none)
  | [_] => ([.processing filename, .skipLessThanTwo filename], none)
  | r0 :: r1 :: rest =>
    let sequences := r0 :: r1 :: rest
    let secondHeader := r1.1
    if complexPfx.isPrefixOf filename then
      if (secondHeader.drop 1).contains ':' then
        ([.processing filename, .resultReplaced secondHeader, .wroteOutput filename],
          some (filename, write_fasta 60 (odInsert secondHeader repl sequences)))
      else
        ([.processing filename, .warnNoColon filename, .wroteOutput filename],
          some (filename, write_fasta 60 (odInsert secondHeader repl sequences)))
    else
      ([.processing filename, .resultReplaced secondHeader, .wroteOutput filename],
        some (filename, write_fasta 60 (odInsert secondHeader repl sequences)))

/-- The `for file_path in fasta_files` loop of `main`: processes every file,
concatenating the diagnostics and collecting the written outputs. -/
def mainLoop (repl : Line) : List (Line × List Line) → List Msg × List (Line × List Line)
  | [] => ([], [])
  | f :: fs =>
    let r := process_fasta_file f.1 f.2 repl
    let rest := mainLoop repl fs
    (r.1 ++ rest.1, r.2.toList ++ rest.2)

/-- Model of `main` of `replace_w_cd.py`, abstracted over the globbed file list:
the start banner, then either the no-files diagnostic or the per-file loop
followed by the completion banner. Directory creation is a filesystem
side effect with no data content and is not modelled. -/
def mainRun (repl : Line) (files : List (Line × List Line)) :
    List Msg × List (Line × List Line) :=
  if files.isEmpty then ([.startBanner, .noFilesFound], [])
  else
    let r := mainLoop repl files
    ([.startBanner] ++ r.1 ++ [.completeBanner], r.2)

end ReplaceWCD

namespace AFGen

/-- The flush `if header: sequences.append((header, ''.join(seq_lines)))`
of `AF_batch_gen.py`. The guard is Python string truthiness: `None` (no
record open) and the empty string (a record opened by a bare `'>'` line,
since the stored header is `line[1:].strip()`) are both falsy, so such a
record is silently dropped. -/
def pushRecord : Option Line → List Line → List (Line × Line) → List (Line × Line)
  | none, _, acc => acc
  | some [], _, acc => acc
  | some (c :: cs), cur, acc => acc ++ [(c :: cs, cur.flatten)]

/-- The loop of `parse_fasta` in `AF_batch_gen.py`: unlike `replace_w_cd.py`
it accumulates a plain list of `(header, sequence)` tuples, the stored
header is `line[1:].strip()` of the stripped line, and the open record is
flushed through the truthiness-guarded `pushRecord` both when the next
header line arrives and at end of input. -/
def parseFastaGo : List Line → Option Line → List Line → List (Line × Line) → List (Line × Line)
  | [], curH, cur, acc => pushRecord curH cur acc
  | l :: rest, curH, cur, acc =>
    let line := strip l
    if line = [] then parseFastaGo rest curH cur acc
    else if startsWithGT line then
      parseFastaGo rest (some (strip (line.drop 1))) [] (pushRecord curH cur acc)
    else
      parseFastaGo rest curH (cur ++ [line]) acc

/-- Model of `parse_fasta` of `AF_batch_gen.py`: a list of `(header, sequence)`
tuples in input order, duplicates preserved, records with an empty stored
header dropped by the `if header:` truthiness check. -/
def parse_fasta (lines : List Line) : List (Line × Line) :=
  parseFastaGo lines none [] []

/-- The header a parser state contributes when flushed: nothing for `None`
or for an empty stored header (both falsy in Python), otherwise that
header. -/
def headToList : Option Line → List Line
  | some (c :: cs) => [c :: cs]
  | _ => []

end AFGen

/-- A line that opens a record in either parser: non-blank after stripping
and starting with `'>'`. -/
def isHeaderLine (l : Line) : Bool :=
  !(strip l).isEmpty && startsWithGT (strip l)

/-- The header value `AF_batch_gen.py` stores for a header line. -/
def headerOf (l : Line) : Line := strip ((strip l).drop 1)

/-- A header line for which `AF_batch_gen.py` actually emits a record: its
stored header text is non-empty, so it survives the `if header:`
truthiness guard (a bare `'>'` line does not). -/
def isKeptHeaderLine (l : Line) : Bool :=
  isHeaderLine l && !(headerOf l).isEmpty

namespace SeparateComplex

/-- Python `s.split(sep)` for a one-character separator: splits at every
occurrence; the empty string yields `[""]`. -/
def pySplit (sep : Char) : Line → List Line
  | [] => [[]]
  | c :: rest =>
    if c = sep then [] :: pySplit sep rest
    else
      match pySplit sep rest with
      | [] => [[c]]
      | hd :: tl => (c :: hd) :: tl

/-- The suffix `"_seq1"`. -/
def seq1Sfx : Line := ['_', 's', 'e', 'q', '1']

/-- The suffix `"_seq2"`. -/
def seq2Sfx : Line := ['_', 's', 'e', 'q', '2']

/-- The per-file body of `process_fasta_files` in `separate_complex.py`:
`none` when the file is skipped with a diagnostic (empty file, first line
not starting with `'>'`, a missing second line — an `IndexError` caught by
the `except` — or a colon-split with a part count other than two),
otherwise the two records written to the `_separated` output file, with
the `'>'` that the writer re-adds not stored in the record name. -/
def splitComplexFile (lines : List Line) : Option (List (Line × Line)) :=
  match lines with
  | [] => none
  | l0 :: rest =>
    if startsWithGT l0 then
      match rest with
      | [] => none
      | l1 :: _ =>
        let header := lstripGT (strip l0)
        match pySplit ':' (strip l1) with
        | [s1, s2] => some [(header ++ seq1Sfx, s1), (header ++ seq2Sfx, s2)]
        | _ => none
    else none

end SeparateComplex

namespace MakeFasta

/-- The variant construction of `make_fasta.py`
(`TIMP3_MATURE_WT[:START] + variant + TIMP3_MATURE_WT[START+LENGTH:]`),
with the template, offset, length and replacement abstracted. -/
def spliceVariant (template : Line) (start len : Nat) (repl : Line) : Line :=
  template.take start ++ repl ++ template.drop (start + len)

end MakeFasta

/-! ## Supporting lemmas -/

/-- A line all of whose characters are non-whitespace is `lstrip`-invariant. -/
theorem lstrip_eq_self (l : Line) (h : ∀ x ∈ l, isPySpace x = false) :
    lstrip l = l := by
  cases l with
  | nil => rfl
  | cons c cs =>
    simp only [lstrip, List.dropWhile_cons]
    rw [h c (List.mem_cons_self c cs)]
    simp

/-- A line all of whose characters are non-whitespace is `rstrip`-invariant. -/
theorem rstrip_eq_self (l : Line) (h : ∀ x ∈ l, isPySpace x = false) :
    rstrip l = l := by
  have hrev : lstrip l.reverse = l.reverse :=
    lstrip_eq_self _ (fun x hx => h x (List.mem_reverse.mp hx))
  simp only [lstrip] at hrev
  rw [rstrip, hrev, List.reverse_reverse]

/-- A line all of whose characters are non-whitespace is `strip`-invariant. -/
theorem strip_eq_self (l : Line) (h : ∀ x ∈ l, isPySpace x = false) :
    strip l = l := by
  rw [strip, lstrip_eq_self l h, rstrip_eq_self l h]

/-- A line that contains no `'>'` character does not start with `'>'`. -/
theorem startsWithGT_eq_false (l : Line) (h : ∀ x ∈ l, x ≠ '>') :
    startsWithGT l = false := by
  cases l with
  | nil => rfl
  | cons c cs =>
    simp only [startsWithGT, decide_eq_false_iff_not]
    exact h c (List.mem_cons_self c cs)

/-- A line that starts with `'>'` is non-empty. -/
theorem ne_nil_of_startsWithGT (l : Line) (h : startsWithGT l = true) : l ≠ [] := by
  cases l with
  | nil => simp [startsWithGT] at h
  | cons c cs => simp

namespace ReplaceWCD

/-- The fuel of `wrapChunksGo` is irrelevant once it dominates the length. -/
theorem wrapChunksGo_fuel (w : Nat) (hw : 1 ≤ w) :
    ∀ f f' (s : Line), s.length ≤ f → s.length ≤ f' →
      wrapChunksGo w f s = wrapChunksGo w f' s := by
  intro f
  induction f with
  | zero =>
    intro f' s hf _
    cases s with
    | nil => cases f' <;> rfl
    | cons c cs => simp at hf
  | succ f ih =>
    intro f' s hf hf'
    cases s with
    | nil => cases f' <;> rfl
    | cons c cs =>
      cases f' with
      | zero => simp at hf'
      | succ f' =>
        simp only [wrapChunksGo]
        congr 1
        apply ih
        · simp only [List.drop, List.length_drop, List.length_cons] at *
          omega
        · simp only [List.length_drop, List.length_cons] at *
          omega

/-- Unfolding law for `wrapChunks` on a non-empty sequence: one chunk of
width `w`, then the chunks of the rest. -/
theorem wrapChunks_cons (w : Nat) (hw : 1 ≤ w) (c : Char) (cs : Line) :
    wrapChunks w (c :: cs) = ((c :: cs).take w) :: wrapChunks w ((c :: cs).drop w) := by
  simp only [wrapChunks, List.length_cons, wrapChunksGo]
  congr 1
  apply wrapChunksGo_fuel w hw
  · simp only [List.length_drop, List.length_cons]; omega
  · rfl

/-- Concatenating the wrapped chunks recovers the sequence. -/
theorem wrapChunksGo_flatten (w : Nat) (hw : 1 ≤ w) :
    ∀ f (s : Line), s.length ≤ f → (wrapChunksGo w f s).flatten = s := by
  intro f
  induction f with
  | zero =>
    intro s hf
    cases s with
    | nil => rfl
    | cons c cs => simp at hf
  | succ f ih =>
    intro s hf
    cases s with
    | nil => rfl
    | cons c cs =>
      simp only [wrapChunksGo, List.flatten_cons]
      rw [ih]
      · exact List.take_append_drop w (c :: cs)
      · simp only [List.length_drop, List.length_cons] at *
        omega

/-- Concatenating the wrapped chunks recovers the sequence (wrapper form). -/
theorem wrapChunks_flatten (w : Nat) (hw : 1 ≤ w) (s : Line) :
    (wrapChunks w s).flatten = s :=
  wrapChunksGo_flatten w hw s.length s (le_refl _)

/-- Every chunk is non-empty and draws its characters from the sequence. -/
theorem wrapChunksGo_mem (w : Nat) (hw : 1 ≤ w) :
    ∀ f (s ch : Line), ch ∈ wrapChunksGo w f s → ch ≠ [] ∧ ∀ x ∈ ch, x ∈ s := by
  intro f
  induction f with
  | zero =>
    intro s ch hch
    cases s <;> simp [wrapChunksGo] at hch
  | succ f ih =>
    intro s ch hch
    cases s with
    | nil => simp [wrapChunksGo] at hch
    | cons c cs =>
      simp only [wrapChunksGo, List.mem_cons] at hch
      rcases hch with h | h
      · subst h
        constructor
        · cases w with
          | zero => omega
          | succ w => simp
        · intro x hx
          exact List.mem_of_mem_take hx
      · obtain ⟨hne, hsub⟩ := ih _ ch h
        exact ⟨hne, fun x hx => List.mem_of_mem_drop (hsub x hx)⟩

/-- Chunks of a whitespace-free, `'>'`-free sequence are stripped, non-blank,
non-header lines. -/
theorem wrapChunks_good (w : Nat) (hw : 1 ≤ w) (s : Line)
    (hs : ∀ c ∈ s, isPySpace c = false ∧ c ≠ '>') :
    ∀ l ∈ wrapChunks w s, strip l = l ∧ l ≠ [] ∧ startsWithGT l = false := by
  intro l hl
  obtain ⟨hlne, hsub⟩ := wrapChunksGo_mem w hw _ s l hl
  exact ⟨strip_eq_self l (fun x hx => (hs x (hsub x hx)).1), hlne,
    startsWithGT_eq_false l (fun x hx => (hs x (hsub x hx)).2)⟩

/-- Consuming a run of stripped, non-blank, non-header lines while a record
is open just appends them to the open record's sequence lines. -/
theorem parseFastaGo_seqLines :
    ∀ (ls : List Line), (∀ l ∈ ls, strip l = l ∧ l ≠ [] ∧ startsWithGT l = false) →
    ∀ (rest : List Line) (h : Line) (cur : List Line) (seqs : List (Line × Line)),
      parseFastaGo (ls ++ rest) (some h) cur seqs
        = parseFastaGo rest (some h) (cur ++ ls) seqs := by
  intro ls
  induction ls with
  | nil => intro _ rest h cur seqs; simp
  | cons l ls ih =>
    intro hls rest h cur seqs
    obtain ⟨hstrip, hne, hgt⟩ := hls l (List.mem_cons_self l ls)
    simp only [List.cons_append, parseFastaGo, hstrip, if_neg hne, hgt, Bool.false_eq_true,
      if_false, List.append_eq]
    rw [ih (fun x hx => hls x (List.mem_cons_of_mem l hx))]
    simp

/-- Assigning a key absent from an OrderedDict appends it at the end. -/
theorem odInsert_of_not_mem (k v : Line) :
    ∀ (l : List (Line × Line)), k ∉ l.map Prod.fst → odInsert k v l = l ++ [(k, v)] := by
  intro l
  induction l with
  | nil => intro _; rfl
  | cons r tl ih =>
    intro hk
    cases r with
    | mk k' v' =>
      simp only [List.map_cons, List.mem_cons] at hk
      push_neg at hk
      obtain ⟨hk1, hk2⟩ := hk
      have hne : ¬ (k' = k) := fun he => hk1 he.symm
      simp only [odInsert, if_neg hne, List.cons_append]
      rw [ih hk2]

/-- Folding records whose keys are fresh and mutually distinct just appends
them, in order. -/
theorem foldRecords_of_disjoint :
    ∀ (file acc : List (Line × Line)),
      (file.map Prod.fst).Nodup →
      (∀ k ∈ file.map Prod.fst, k ∉ acc.map Prod.fst) →
      foldRecords acc file = acc ++ file := by
  intro file
  induction file with
  | nil => intro acc _ _; simp [foldRecords]
  | cons r tl ih =>
    intro acc hnd hdis
    simp only [List.map_cons, List.nodup_cons] at hnd
    simp only [foldRecords]
    rw [odInsert_of_not_mem r.1 r.2 acc (hdis r.1 (by simp)),
      ih _ hnd.2]
    · simp
    · intro k hk
      simp only [List.map_append, List.mem_append, List.map_cons, List.map_nil,
        List.mem_singleton]
      push_neg
      constructor
      · exact hdis k (by simp [hk])
      · intro he
        rw [he] at hk
        exact hnd.1 hk

/-- The keys of an OrderedDict after an assignment: unchanged for an
existing key, the new key appended otherwise. -/
theorem odInsert_map_fst (k v : Line) :
    ∀ l : List (Line × Line), (odInsert k v l).map Prod.fst
      = if k ∈ l.map Prod.fst then l.map Prod.fst else l.map Prod.fst ++ [k] := by
  intro l
  induction l with
  | nil => simp [odInsert]
  | cons r tl ih =>
    cases r with
    | mk k' v' =>
      by_cases he : k' = k
      · subst he
        simp [odInsert]
      · have hne : ¬ (k = k') := fun h => he h.symm
        simp only [odInsert, if_neg he, List.map_cons, ih, List.mem_cons]
        by_cases hk : k ∈ tl.map Prod.fst
        · simp [hk, hne]
        · simp [hk, hne]

/-- Assignment preserves distinctness of OrderedDict keys. -/
theorem odInsert_nodup (k v : Line) (l : List (Line × Line))
    (h : (l.map Prod.fst).Nodup) : ((odInsert k v l).map Prod.fst).Nodup := by
  rw [odInsert_map_fst]
  by_cases hk : k ∈ l.map Prod.fst
  · simpa [hk] using h
  · simp only [hk, if_false]
    simp [List.nodup_append, h, hk]

/-- Every intermediate state of the OrderedDict parser has distinct keys. -/
theorem parseFastaGo_nodup :
    ∀ (lines : List Line) (curH : Option Line) (cur : List Line) (seqs : List (Line × Line)),
      (seqs.map Prod.fst).Nodup → ((parseFastaGo lines curH cur seqs).map Prod.fst).Nodup := by
  intro lines
  induction lines with
  | nil =>
    intro curH cur seqs h
    cases curH with
    | none => exact h
    | some hd => exact odInsert_nodup _ _ _ h
  | cons l rest ih =>
    intro curH cur seqs h
    simp only [parseFastaGo]
    by_cases hb : strip l = []
    · rw [if_pos hb]
      exact ih _ _ _ h
    · rw [if_neg hb]
      by_cases hgt : startsWithGT (strip l) = true
      · rw [if_pos hgt]
        cases curH with
        | none => exact ih _ _ _ h
        | some hd => exact ih _ _ _ (odInsert_nodup _ _ _ h)
      · rw [if_neg hgt]
        exact ih _ _ _ h

/-- The OrderedDict parser never produces two records with the same header. -/
theorem parse_fasta_nodup (lines : List Line) :
    ((parse_fasta lines).map Prod.fst).Nodup :=
  parseFastaGo_nodup lines none [] [] (by simp)

/-- Assigning the key sitting at position 1 (distinct from the key at
position 0) updates exactly that entry. -/
theorem odInsert_second (r0 r1 : Line × Line) (rest : List (Line × Line)) (repl : Line)
    (hne : ¬ (r0.1 = r1.1)) :
    odInsert r1.1 repl (r0 :: r1 :: rest) = r0 :: (r1.1, repl) :: rest := by
  cases r0 with
  | mk k0 v0 =>
    cases r1 with
    | mk k1 v1 =>
      simp [odInsert, if_neg hne]

/-- Re-parsing the writer's output, from a state with an open record,
folds every written record into the dictionary by assignment. -/
theorem parseFastaGo_write (w : Nat) (hw : 1 ≤ w) :
    ∀ (file : List (Line × Line)),
      (∀ r ∈ file, strip r.1 = r.1 ∧ startsWithGT r.1 = true) →
      (∀ r ∈ file, ∀ c ∈ r.2, isPySpace c = false ∧ c ≠ '>') →
      ∀ (h : Line) (cur : List Line) (seqs : List (Line × Line)),
        parseFastaGo (write_fasta w file) (some h) cur seqs
          = foldRecords (odInsert h cur.flatten seqs) file := by
  intro file
  induction file with
  | nil => intro _ _ h cur seqs; simp [write_fasta, parseFastaGo, foldRecords]
  | cons r tl ih =>
    intro hheads hseqs h cur seqs
    obtain ⟨hstrip, hgt⟩ := hheads r (List.mem_cons_self r tl)
    have hne : r.1 ≠ [] := ne_nil_of_startsWithGT r.1 hgt
    have hchunks := wrapChunks_good w hw r.2 (hseqs r (List.mem_cons_self r tl))
    simp only [write_fasta, List.flatMap_cons, List.cons_append]
    simp only [parseFastaGo, hstrip, if_neg hne, hgt, if_true]
    rw [← write_fasta, parseFastaGo_seqLines (wrapChunks w r.2) hchunks]
    rw [ih (fun x hx => hheads x (List.mem_cons_of_mem r hx))
      (fun x hx => hseqs x (List.mem_cons_of_mem r hx))]
    simp only [List.nil_append, foldRecords]
    rw [wrapChunks_flatten w hw r.2]

/-! ## Claims -/

/-- Claim C1 (amended): Parsing the writer's output of a FastaFile reproduces
the same ordered `(header, sequence)` pairs, for any wrap width ≥ 1,
provided every header is strip-invariant and starts with `'>'`, the headers
are pairwise distinct, and the sequences contain no whitespace and no `'>'`.
(As stated over arbitrary pairs the claim is false: see the
counterexample, where a header without its `'>'` marker is written as a
plain line and the parse loses the record; duplicate headers also collapse
because the parser is keyed by header.) -/
theorem roundtrip_parse_write (w : Nat) (file : List (Line × Line))
    (hw : 1 ≤ w)
    (hheads : ∀ r ∈ file, strip r.1 = r.1 ∧ startsWithGT r.1 = true)
    (hnodup : (file.map Prod.fst).Nodup)
    (hseqs : ∀ r ∈ file, ∀ c ∈ r.2, isPySpace c = false ∧ c ≠ '>') :
    parse_fasta (write_fasta w file) = file := by
  cases file with
  | nil => rfl
  | cons r tl =>
    obtain ⟨hstrip, hgt⟩ := hheads r (List.mem_cons_self r tl)
    have hne : r.1 ≠ [] := ne_nil_of_startsWithGT r.1 hgt
    have hchunks := wrapChunks_good w hw r.2 (hseqs r (List.mem_cons_self r tl))
    simp only [List.map_cons, List.nodup_cons] at hnodup
    simp only [parse_fasta, write_fasta, List.flatMap_cons, List.cons_append]
    simp only [parseFastaGo, hstrip, if_neg hne, hgt, if_true]
    rw [← write_fasta, parseFastaGo_seqLines (wrapChunks w r.2) hchunks]
    rw [parseFastaGo_write w hw tl (fun x hx => hheads x (List.mem_cons_of_mem r hx))
      (fun x hx => hseqs x (List.mem_cons_of_mem r hx))]
    simp only [List.nil_append]
    rw [wrapChunks_flatten w hw r.2]
    have hdis : ∀ k ∈ tl.map Prod.fst, k ∉ [(r.1, r.2)].map Prod.fst := by
      intro k hk
      simp only [List.map_cons, List.map_nil, List.mem_singleton]
      intro he
      rw [he] at hk
      exact hnodup.1 hk
    show foldRecords [(r.1, r.2)] tl = r :: tl
    rw [foldRecords_of_disjoint tl [(r.1, r.2)] hnodup.2 hdis]
    simp

/-- Witness for `roundtrip_parse_write`: a concrete two-record file,
wrap width 1, round-trips. -/
theorem roundtrip_parse_write_witness :
    parse_fasta (write_fasta 1 [([ '>', 'A' ], ['M', 'K']), ([ '>', 'B' ], ['V'])])
      = [([ '>', 'A' ], ['M', 'K']), ([ '>', 'B' ], ['V'])] :=
  roundtrip_parse_write 1 [([ '>', 'A' ], ['M', 'K']), ([ '>', 'B' ], ['V'])]
    (by decide) (by decide) (by decide) (by decide)

/-- Claim C1 counterexample: The claim quantifies over every FastaFile: for
the record `("A", "X")`, whose stored header lacks the leading `'>'` that
`write_fasta` never re-adds, the written text has no header line at all, so
parsing it back yields the empty record list, not the original file. -/
theorem roundtrip_parse_write_cx :
    ¬ (parse_fasta (write_fasta 1 [([ 'A' ], ['X'])]) = [([ 'A' ], ['X'])]) := by
  decide

/-- Claim C2: For every parsed FastaFile with at least two records, and any
filename and replacement string, the file `process_fasta_file` writes is
the original records with only the second record's sequence replaced: the
first record, the second record's header, and all later records are
byte-identical to the parse result. In particular the composite
(`complex_`-named) branch never applies its reconstructed header. -/
theorem process_changes_only_second_record (filename repl : Line) (contents : List Line)
    (r0 r1 : Line × Line) (rest : List (Line × Line))
    (hparse : parse_fasta contents = r0 :: r1 :: rest) :
    (process_fasta_file filename contents repl).2
      = some (filename, write_fasta 60 (r0 :: (r1.1, repl) :: rest)) := by
  have hnd : ((parse_fasta contents).map Prod.fst).Nodup := parse_fasta_nodup contents
  rw [hparse] at hnd
  simp only [List.map_cons, List.nodup_cons, List.mem_cons] at hnd
  have hne : ¬ (r0.1 = r1.1) := fun he => hnd.1 (Or.inl he)
  have hod := odInsert_second r0 r1 rest repl hne
  unfold process_fasta_file
  rw [hparse]
  by_cases hc : complexPfx.isPrefixOf filename
  · simp only [hc, if_true]
    split <;> simp [hod]
  · simp [hc, hod]

/-- Witness for `process_changes_only_second_record`: a concrete
two-record file; the written output preserves record 1 and the second
header, and the second sequence becomes the replacement. -/
theorem process_changes_only_second_record_witness :
    (process_fasta_file ['x'] [['>', 'A'], ['M'], ['>', 'B'], ['V']] ['Q']).2
      = some (['x'], write_fasta 60 [([ '>', 'A' ], ['M']), ([ '>', 'B' ], ['Q'])]) :=
  process_changes_only_second_record ['x'] ['Q'] [['>', 'A'], ['M'], ['>', 'B'], ['V']]
    ([ '>', 'A' ], ['M']) ([ '>', 'B' ], ['V']) [] (by decide)

end ReplaceWCD

namespace AFGen

/-- The flush contributes the open record's header exactly when the stored
header is truthy. -/
theorem pushRecord_map_fst (curH : Option Line) (cur : List Line)
    (acc : List (Line × Line)) :
    (pushRecord curH cur acc).map Prod.fst = acc.map Prod.fst ++ headToList curH := by
  cases curH with
  | none => simp [pushRecord, headToList]
  | some h =>
    cases h with
    | nil => simp [pushRecord, headToList]
    | cons c cs => simp [pushRecord, headToList]

/-- The headers produced by the list-based parser, from any intermediate
state: the accumulated ones, the open one (if truthy), then one per
remaining header line with non-empty stored header, in input order. -/
theorem parseFastaGo_map_fst :
    ∀ (lines : List Line) (curH : Option Line) (cur : List Line) (acc : List (Line × Line)),
      (parseFastaGo lines curH cur acc).map Prod.fst
        = acc.map Prod.fst ++ headToList curH
            ++ (lines.filter isKeptHeaderLine).map headerOf := by
  intro lines
  induction lines with
  | nil =>
    intro curH cur acc
    simp only [parseFastaGo, List.filter_nil, List.map_nil, List.append_nil]
    exact pushRecord_map_fst curH cur acc
  | cons l rest ih =>
    intro curH cur acc
    simp only [parseFastaGo]
    by_cases hb : strip l = []
    · have hhl : isKeptHeaderLine l = false := by
        simp [isKeptHeaderLine, isHeaderLine, hb]
      rw [if_pos hb, ih, List.filter_cons, hhl]
      simp
    · rw [if_neg hb]
      by_cases hgt : startsWithGT (strip l) = true
      · rw [if_pos hgt, ih, pushRecord_map_fst, List.filter_cons]
        have hdef : headerOf l = strip ((strip l).drop 1) := rfl
        rw [← hdef]
        cases hh : headerOf l with
        | nil =>
          have hk : isKeptHeaderLine l = false := by
            simp [isKeptHeaderLine, hh]
          rw [hk]
          simp [headToList]
        | cons c cs =>
          have hk : isKeptHeaderLine l = true := by
            simp [isKeptHeaderLine, isHeaderLine, hb, hgt, hh, List.isEmpty_iff]
          rw [hk]
          simp [headToList]
          exact hh.symm
      · have hgtf : startsWithGT (strip l) = false := by
          simpa using hgt
        have hhl : isKeptHeaderLine l = false := by
          simp [isKeptHeaderLine, isHeaderLine, hgtf]
        rw [if_neg hgt, ih, List.filter_cons, hhl]
        simp

end AFGen

/-- Claim C3 (amended): For the list-based parser of `AF_batch_gen.py`:
one record per header line whose stored header (`line[1:].strip()`) is
non-empty, in input order, duplicate headers preserved, and the record
count equals the count of such header lines. Two faithful departures from
the claim as stated: a bare `'>'` header line opens a record whose empty
header fails the source's `if header:` truthiness guard, so it is dropped
(e.g. `[">A","X",">","Y",">B","Z"]` has three header lines but two
records); and for the OrderedDict-based parser of `replace_w_cd.py`, which
the claim also cites, duplicate header lines collapse into one record —
see the counterexample. -/
theorem af_parser_one_record_per_header (lines : List Line) :
    (AFGen.parse_fasta lines).map Prod.fst = (lines.filter isKeptHeaderLine).map headerOf ∧
    (AFGen.parse_fasta lines).length = (lines.filter isKeptHeaderLine).length := by
  have h := AFGen.parseFastaGo_map_fst lines none [] []
  simp only [List.map_nil, List.nil_append, AFGen.headToList] at h
  refine ⟨h, ?_⟩
  have hlen := congrArg List.length h
  simpa using hlen

/-- Claim C3 counterexample: The stream `[">A", "X", ">A", "Y"]` has two
header lines, but the OrderedDict parser of `replace_w_cd.py` returns a
single record (the later sequence overwrote the earlier one under the
shared key), so the record count differs from the header-line count. -/
theorem dict_parser_duplicate_headers_cx :
    ReplaceWCD.parse_fasta [['>', 'A'], ['X'], ['>', 'A'], ['Y']] = [([ '>', 'A' ], ['Y'])] ∧
    ([[ '>', 'A' ], ['X'], ['>', 'A'], ['Y']].filter isHeaderLine).length = 2 := by
  decide

namespace SeparateComplex

/-- The function `pySplit` always returns at least one part. -/
theorem pySplit_ne_nil (sep : Char) : ∀ l : Line, pySplit sep l ≠ [] := by
  intro l
  cases l with
  | nil => simp [pySplit]
  | cons c rest =>
    simp only [pySplit]
    by_cases hc : c = sep
    · simp [hc]
    · simp only [if_neg hc]
      rcases h : pySplit sep rest with _ | ⟨hd, tl⟩ <;> simp

/-- Splitting a separator-free string yields the single part. -/
theorem pySplit_no_sep (sep : Char) :
    ∀ l : Line, sep ∉ l → pySplit sep l = [l] := by
  intro l
  induction l with
  | nil => intro _; rfl
  | cons c rest ih =>
    intro hmem
    simp only [List.mem_cons] at hmem
    push_neg at hmem
    have hc : ¬ (c = sep) := fun he => hmem.1 he.symm
    simp only [pySplit, if_neg hc, ih hmem.2]

/-- Splitting at the first separator: a separator-free prefix becomes the
first part. -/
theorem pySplit_append (sep : Char) (A B : Line) (hA : sep ∉ A) :
    pySplit sep (A ++ sep :: B) = A :: pySplit sep B := by
  induction A with
  | nil => simp [pySplit]
  | cons a A ih =>
    simp only [List.mem_cons] at hA
    push_neg at hA
    have ha : ¬ (a = sep) := fun he => hA.1 he.symm
    simp only [List.cons_append, pySplit, if_neg ha, List.append_eq, ih hA.2]

/-- The number of parts is one more than the number of separators. -/
theorem pySplit_length (sep : Char) :
    ∀ l : Line, (pySplit sep l).length = l.count sep + 1 := by
  intro l
  induction l with
  | nil => simp [pySplit]
  | cons c rest ih =>
    simp only [pySplit]
    by_cases hc : c = sep
    · rw [if_pos hc, hc, List.count_cons_self]
      simp only [List.length_cons, ih]
    · have hcount : (c :: rest).count sep = rest.count sep :=
        List.count_cons_of_ne (fun he => hc he.symm) rest
      rw [if_neg hc, hcount]
      rcases h : pySplit sep rest with _ | ⟨hd, tl⟩
      · exact absurd h (pySplit_ne_nil sep rest)
      · have hih := ih
        rw [h] at hih
        simp at hih ⊢
        omega

/-- Unfolding of `splitComplexFile` on a file with at least two lines. -/
theorem splitComplexFile_cons (l0 l1 : Line) (rest : List Line) :
    splitComplexFile (l0 :: l1 :: rest)
      = if startsWithGT l0 = true then
          match pySplit ':' (strip l1) with
          | [s1, s2] => some [(lstripGT (strip l0) ++ seq1Sfx, s1),
              (lstripGT (strip l0) ++ seq2Sfx, s2)]
          | _ => none
        else none := rfl

/-- Claim C4 (amended): For sequences `A` and `B` free of `':'` and of
whitespace, splitting a file whose combined sequence line is `A ++ ":" ++ B`
yields the two records with sequences `A` and `B`, in that order: complex
splitting inverts the colon-join. (As stated, over arbitrary `A` and `B`,
the claim is false: a colon inside `A` or `B` makes the split produce more
than two parts and the file is skipped — see the counterexample.) -/
theorem split_inverts_colon_join (l0 A B : Line) (rest : List Line)
    (h0 : startsWithGT l0 = true)
    (hA : ∀ c ∈ A, c ≠ ':' ∧ isPySpace c = false)
    (hB : ∀ c ∈ B, c ≠ ':' ∧ isPySpace c = false) :
    splitComplexFile (l0 :: (A ++ ':' :: B) :: rest)
      = some [(lstripGT (strip l0) ++ seq1Sfx, A), (lstripGT (strip l0) ++ seq2Sfx, B)] := by
  have hstrip : strip (A ++ ':' :: B) = A ++ ':' :: B := by
    apply strip_eq_self
    intro x hx
    simp only [List.mem_append, List.mem_cons] at hx
    rcases hx with h | h | h
    · exact (hA x h).2
    · subst h; decide
    · exact (hB x h).2
  have hsplit : pySplit ':' (A ++ ':' :: B) = [A, B] := by
    rw [pySplit_append ':' A B (fun hc => (hA ':' hc).1 rfl),
      pySplit_no_sep ':' B (fun hc => (hB ':' hc).1 rfl)]
  rw [splitComplexFile_cons, if_pos h0, hstrip, hsplit]

/-- Witness for `split_inverts_colon_join`: splitting `">H"` over `"M:Q"`
produces the records `("H_seq1", "M")` and `("H_seq2", "Q")`. -/
theorem split_inverts_colon_join_witness :
    splitComplexFile [[ '>', 'H' ], ['M', ':', 'Q']]
      = some [(lstripGT (strip [ '>', 'H' ]) ++ seq1Sfx, ['M']),
          (lstripGT (strip [ '>', 'H' ]) ++ seq2Sfx, ['Q'])] :=
  split_inverts_colon_join [ '>', 'H' ] ['M'] ['Q'] [] (by decide) (by decide) (by decide)

/-- Claim C4 counterexample: Taking `A = "A:A"` and `B = "B"`, the colon-join
is `"A:A:B"`, which splits into three parts, so the splitter skips the file
and produces no records at all — not records holding `A` and `B` as the
claim states for arbitrary sequences. -/
theorem split_inverts_colon_join_cx :
    splitComplexFile [[ '>', 'H' ], ['A', ':', 'A', ':', 'B']] = none := by
  decide

/-- Claim C6 (amended): For every accepted input file, the output is exactly
two records named by appending `"_seq1"` and `"_seq2"` to the first line
stripped of ALL its leading `'>'` characters (Python `lstrip('>')` — for a
first line `">>H"` the base is `"H"`, not `">H"` as the claim's
one-character reading says; see the counterexample), each holding one of
the two colon-separated parts; and whenever the colon count of the combined
sequence differs from 1, the file is skipped and no output is produced. -/
theorem splitter_output_records (l0 l1 : Line) (rest : List Line) :
    ((strip l1).count ':' ≠ 1 → splitComplexFile (l0 :: l1 :: rest) = none) ∧
    (∀ out, splitComplexFile (l0 :: l1 :: rest) = some out →
      (strip l1).count ':' = 1 ∧
      ∃ s1 s2, pySplit ':' (strip l1) = [s1, s2] ∧
        out = [(lstripGT (strip l0) ++ seq1Sfx, s1), (lstripGT (strip l0) ++ seq2Sfx, s2)]) := by
  rw [splitComplexFile_cons]
  by_cases hgt : startsWithGT l0 = true
  · rw [if_pos hgt]
    rcases hps : pySplit ':' (strip l1) with _ | ⟨s1, _ | ⟨s2, _ | ⟨s3, tl⟩⟩⟩
    · exact absurd hps (pySplit_ne_nil ':' (strip l1))
    · have hlen := pySplit_length ':' (strip l1)
      rw [hps] at hlen
      simp only [List.length_cons, List.length_nil] at hlen
      constructor
      · intro _; rfl
      · intro out hout; simp at hout
    · have hlen := pySplit_length ':' (strip l1)
      rw [hps] at hlen
      simp only [List.length_cons, List.length_nil] at hlen
      constructor
      · intro hc; omega
      · intro out hout
        simp only [Option.some_inj] at hout
        exact ⟨by omega, s1, s2, rfl, hout.symm⟩
    · have hlen := pySplit_length ':' (strip l1)
      rw [hps] at hlen
      simp only [List.length_cons] at hlen
      constructor
      · intro _; rfl
      · intro out hout; simp at hout
  · rw [if_neg hgt]
    exact ⟨fun _ => rfl, fun out hout => by simp at hout⟩

/-- Witness for `splitter_output_records`: a combined line with two colons
(colon count 2 ≠ 1) is skipped. -/
theorem splitter_output_records_witness :
    splitComplexFile [[ '>', 'H' ], ['A', ':', 'B', ':', 'C']] = none :=
  (splitter_output_records [ '>', 'H' ] ['A', ':', 'B', ':', 'C'] []).1 (by decide)

/-- Claim C6 counterexample: An accepted file whose first line is `">>H"`:
the code's `lstrip('>')` removes BOTH leading `'>'` characters, so the
output records are named `"H_seq1"`/`"H_seq2"`, while the claim's "header
with the leading `'>'` removed" is `">H"`, predicting `">H_seq1"`. -/
theorem splitter_name_cx :
    splitComplexFile [[ '>', '>', 'H' ], ['A', ':', 'B']]
      = some [([ 'H', '_', 's', 'e', 'q', '1' ], ['A']),
          ([ 'H', '_', 's', 'e', 'q', '2' ], ['B'])] ∧
    ¬ ([ 'H', '_', 's', 'e', 'q', '1' ] : Line) = [ '>', 'H', '_', 's', 'e', 'q', '1' ] := by
  decide

/-- Claim C10: The splitter reads only `lines[0]` and `lines[1]`: two input
files agreeing on their first two lines produce identical outputs, whatever
further lines (wrapped sequence continuation or extra records) follow. -/
theorem splitter_depends_only_on_first_two_lines (l0 l1 : Line) (rest rest' : List Line) :
    splitComplexFile (l0 :: l1 :: rest) = splitComplexFile (l0 :: l1 :: rest') := rfl

end SeparateComplex

namespace MakeFasta

/-- Claim C5: Positional splice: replacing the length-`len` substring at
offset `start` of a template with a replacement of length `M` yields a
sequence of length `original - len + M` whose prefix before `start` and
whose suffix from `start + len` on are byte-identical to the template,
provided the replaced window lies within the template's bounds. -/
theorem splice_spec (template repl : Line) (start len : Nat)
    (h : start + len ≤ template.length) :
    (spliceVariant template start len repl).length
        = template.length - len + repl.length ∧
    (spliceVariant template start len repl).take start = template.take start ∧
    (spliceVariant template start len repl).drop (start + repl.length)
        = template.drop (start + len) := by
  have htake : (template.take start).length = start := by
    simp only [List.length_take]
    omega
  refine ⟨?_, ?_, ?_⟩
  · simp only [spliceVariant, List.length_append, List.length_take, List.length_drop]
    omega
  · rw [spliceVariant, List.append_assoc, List.take_left' htake]
  · have hlen2 : (template.take start ++ repl).length = start + repl.length := by
      simp only [List.length_append, htake]
    rw [spliceVariant, List.drop_left' hlen2]

/-- Witness for `splice_spec`: splicing `"XYZ"` over the window `[2, 4)` of
`"ABCDEF"` (giving `"ABXYZEF"`... precisely `"AB" ++ "XYZ" ++ "EF"`) has
length `6 - 2 + 3` and untouched prefix and suffix. -/
theorem splice_spec_witness :
    (spliceVariant ['A', 'B', 'C', 'D', 'E', 'F'] 2 2 ['X', 'Y', 'Z']).length
        = 6 - 2 + 3 ∧
    (spliceVariant ['A', 'B', 'C', 'D', 'E', 'F'] 2 2 ['X', 'Y', 'Z']).take 2
        = (['A', 'B', 'C', 'D', 'E', 'F'] : Line).take 2 ∧
    (spliceVariant ['A', 'B', 'C', 'D', 'E', 'F'] 2 2 ['X', 'Y', 'Z']).drop (2 + 3)
        = (['A', 'B', 'C', 'D', 'E', 'F'] : Line).drop (2 + 2) :=
  splice_spec ['A', 'B', 'C', 'D', 'E', 'F'] ['X', 'Y', 'Z'] 2 2 (by decide)

end MakeFasta

namespace ReplaceWCD

/-- The outputs of the batch loop: every file contributes independently,
in order; skipped files contribute nothing. -/
theorem mainLoop_snd (repl : Line) :
    ∀ files : List (Line × List Line),
      (mainLoop repl files).2
        = files.filterMap (fun f => (process_fasta_file f.1 f.2 repl).2) := by
  intro files
  induction files with
  | nil => rfl
  | cons f fs ih =>
    simp only [mainLoop, ih, List.filterMap_cons]
    cases (process_fasta_file f.1 f.2 repl).2 <;> simp

/-- The function `process_fasta_file` never prints a processed-versus-skipped count. -/
theorem process_fasta_file_no_count (filename contents repl) :
    ∀ m ∈ (process_fasta_file filename contents repl).1, m.isFinalCount = false := by
  intro m hm
  unfold process_fasta_file at hm
  cases hp : parse_fasta contents with
  | nil =>
    rw [hp] at hm
    simp only [List.mem_cons, List.not_mem_nil, or_false] at hm
    rcases hm with h | h <;> simp [h, Msg.isFinalCount]
  | cons r0 tl =>
    cases tl with
    | nil =>
      rw [hp] at hm
      simp only [List.mem_cons, List.not_mem_nil, or_false] at hm
      rcases hm with h | h <;> simp [h, Msg.isFinalCount]
    | cons r1 rest =>
      rw [hp] at hm
      by_cases hc : complexPfx.isPrefixOf filename = true
      · simp only [hc, if_true] at hm
        by_cases hcol : (r1.1.drop 1).contains ':' = true
        · simp only [hcol, if_true] at hm
          simp only [List.mem_cons, List.not_mem_nil, or_false] at hm
          rcases hm with h | h | h <;> simp [h, Msg.isFinalCount]
        · simp only [hcol, if_false, Bool.false_eq_true] at hm
          simp only [List.mem_cons, List.not_mem_nil, or_false] at hm
          rcases hm with h | h | h <;> simp [h, Msg.isFinalCount]
      · simp only [hc, if_false, Bool.false_eq_true] at hm
        simp only [List.mem_cons, List.not_mem_nil, or_false] at hm
        rcases hm with h | h | h <;> simp [h, Msg.isFinalCount]

/-- The batch loop never prints a processed-versus-skipped count. -/
theorem mainLoop_no_count (repl : Line) :
    ∀ files : List (Line × List Line),
      ∀ m ∈ (mainLoop repl files).1, m.isFinalCount = false := by
  intro files
  induction files with
  | nil => intro m hm; simp [mainLoop] at hm
  | cons f fs ih =>
    intro m hm
    simp only [mainLoop, List.mem_append] at hm
    rcases hm with h | h
    · exact process_fasta_file_no_count f.1 f.2 repl m h
    · exact ih m h

/-- Claim C7 (amended): The batch driver processes every file independently
and in order, so no single-file failure or skip removes the outputs of the
others; with zero matching files it prints the start banner and the
no-files-found diagnostic and produces no outputs. However it never prints
a processed-versus-skipped count — the count report the claim describes is
absent from every run (see the counterexample). -/
theorem batch_driver_spec (repl : Line) (files : List (Line × List Line)) :
    (mainRun repl files).2
        = files.filterMap (fun f => (process_fasta_file f.1 f.2 repl).2) ∧
    (files = [] → (mainRun repl files).1 = [Msg.startBanner, Msg.noFilesFound]
        ∧ (mainRun repl files).2 = []) ∧
    (∀ m ∈ (mainRun repl files).1, m.isFinalCount = false) := by
  refine ⟨?_, ?_, ?_⟩
  · cases files with
    | nil => rfl
    | cons f fs =>
      simp only [mainRun, List.isEmpty_cons, if_false, Bool.false_eq_true]
      exact mainLoop_snd repl (f :: fs)
  · intro he
    subst he
    exact ⟨rfl, rfl⟩
  · intro m hm
    cases files with
    | nil =>
      simp only [mainRun, List.isEmpty_nil, if_true, List.mem_cons,
        List.not_mem_nil, or_false] at hm
      rcases hm with h | h <;> simp [h, Msg.isFinalCount]
    | cons f fs =>
      simp only [mainRun, List.isEmpty_cons, if_false, Bool.false_eq_true,
        List.cons_append, List.mem_cons, List.mem_append,
        List.not_mem_nil, or_false, false_or, List.mem_singleton] at hm
      rcases hm with h | h | h
      · simp [h, Msg.isFinalCount]
      · exact mainLoop_no_count repl (f :: fs) m h
      · simp [h, Msg.isFinalCount]

/-- Witness for `batch_driver_spec`: an empty file list yields exactly the
banner and the no-files-found diagnostic, and no outputs. -/
theorem batch_driver_spec_witness :
    (mainRun ['Q'] []).1 = [Msg.startBanner, Msg.noFilesFound]
        ∧ (mainRun ['Q'] []).2 = [] :=
  (batch_driver_spec ['Q'] []).2.1 rfl

/-- Claim C7 counterexample: A concrete run over one skipped file (a single
record) and one processed file: the driver prints its diagnostics and the
completion banner, but no message of the run is a processed-versus-skipped
count report, contrary to the final-count reporting the claim states. -/
theorem batch_driver_count_cx :
    ((mainRun ['Q'] [(['a'], [['>', 'A'], ['M']]),
        (['b'], [['>', 'A'], ['M'], ['>', 'B'], ['V']])]).1.all
      fun m => !m.isFinalCount) = true := by
  decide

/-- Claim C8: A file whose parse has fewer than two records is skipped with
the less-than-two diagnostic and produces no output, and its presence
anywhere in the batch leaves the outputs of the files before and after it
untouched — the batch is not aborted. -/
theorem skip_fewer_than_two_records (filename repl : Line) (contents : List Line)
    (pre suf : List (Line × List Line))
    (h : (parse_fasta contents).length < 2) :
    process_fasta_file filename contents repl
        = ([Msg.processing filename, Msg.skipLessThanTwo filename], none) ∧
    (mainLoop repl (pre ++ (filename, contents) :: suf)).2
        = (mainLoop repl pre).2 ++ (mainLoop repl suf).2 := by
  have hproc : process_fasta_file filename contents repl
      = ([Msg.processing filename, Msg.skipLessThanTwo filename], none) := by
    unfold process_fasta_file
    cases hp : parse_fasta contents with
    | nil => rfl
    | cons r0 tl =>
      cases tl with
      | nil => rfl
      | cons r1 rest =>
        rw [hp] at h
        simp only [List.length_cons] at h
        omega
  refine ⟨hproc, ?_⟩
  rw [mainLoop_snd, mainLoop_snd, mainLoop_snd, List.filterMap_append,
    List.filterMap_cons]
  simp [hproc]

/-- Witness for `skip_fewer_than_two_records`: a one-record file is skipped
and an empty batch around it is unaffected. -/
theorem skip_fewer_than_two_records_witness :
    process_fasta_file ['s'] [['>', 'A'], ['M']] ['Q']
        = ([Msg.processing ['s'], Msg.skipLessThanTwo ['s']], none) ∧
    (mainLoop ['Q'] ([] ++ (['s'], [['>', 'A'], ['M']]) :: [])).2
        = (mainLoop ['Q'] []).2 ++ (mainLoop ['Q'] []).2 :=
  skip_fewer_than_two_records ['s'] ['Q'] [['>', 'A'], ['M']] [] [] (by decide)

/-- Claim C9: A file named with the `complex_` prefix whose second record's
header has no `':'` after its first character is still processed: the rule
emits the warning diagnostic, falls back to whole-string replacement of the
second record's sequence, and writes the output file. -/
theorem complex_without_colon_fallback (filename repl : Line) (contents : List Line)
    (r0 r1 : Line × Line) (rest : List (Line × Line))
    (hparse : parse_fasta contents = r0 :: r1 :: rest)
    (hname : complexPfx.isPrefixOf filename = true)
    (hnocolon : (r1.1.drop 1).contains ':' = false) :
    process_fasta_file filename contents repl
        = ([Msg.processing filename, Msg.warnNoColon filename, Msg.wroteOutput filename],
          some (filename, write_fasta 60 (r0 :: (r1.1, repl) :: rest))) := by
  have hnd : ((parse_fasta contents).map Prod.fst).Nodup := parse_fasta_nodup contents
  rw [hparse] at hnd
  simp only [List.map_cons, List.nodup_cons, List.mem_cons] at hnd
  have hne : ¬ (r0.1 = r1.1) := fun he => hnd.1 (Or.inl he)
  have hod := odInsert_second r0 r1 rest repl hne
  unfold process_fasta_file
  rw [hparse]
  simp only [hname, if_true, hnocolon, Bool.false_eq_true, if_false, hod]

/-- Witness for `complex_without_colon_fallback`: the file
`"complex_x"` with records `(">A", "M")`, `(">B", "V")` (no colon in the
second header) is processed with a warning and its second sequence is
replaced wholesale. -/
theorem complex_without_colon_fallback_witness :
    process_fasta_file ['c', 'o', 'm', 'p', 'l', 'e', 'x', '_', 'x']
        [['>', 'A'], ['M'], ['>', 'B'], ['V']] ['Q']
      = ([Msg.processing ['c', 'o', 'm', 'p', 'l', 'e', 'x', '_', 'x'],
          Msg.warnNoColon ['c', 'o', 'm', 'p', 'l', 'e', 'x', '_', 'x'],
          Msg.wroteOutput ['c', 'o', 'm', 'p', 'l', 'e', 'x', '_', 'x']],
        some (['c', 'o', 'm', 'p', 'l', 'e', 'x', '_', 'x'],
          write_fasta 60 [([ '>', 'A' ], ['M']), ([ '>', 'B' ], ['Q'])])) :=
  complex_without_colon_fallback ['c', 'o', 'm', 'p', 'l', 'e', 'x', '_', 'x'] ['Q']
    [['>', 'A'], ['M'], ['>', 'B'], ['V']]
    ([ '>', 'A' ], ['M']) ([ '>', 'B' ], ['V']) [] (by decide) (by decide) (by decide)

end ReplaceWCD

end Fasta
